import Mathlib

/-
  Verification of the CodeCity analysis-and-layout pipeline (scanner2.py, app.py).

  The Python sources are shallowly embedded below.  File contents and paths are
  modelled as `List Char`; machine integers are `Nat`; Python floats that feed
  the treemap layout are modelled as exact rationals `ℚ`; code that can raise
  is modelled with `Option`/`Except`.  External collaborators (git clone,
  the lizard parser, the thread pool's completion order) are parameters:
  the cloned tree is a list of walked directories, lizard's per-function
  cyclomatic complexities are an `Option (List ℕ)` oracle, and the
  nondeterministic `as_completed` order is an explicit `order` list that the
  theorems quantify over (constrained to be a permutation of the input files).
-/

set_option maxHeartbeats 1000000

/-- Char-list version of Python `str.startswith`. -/
def startsWithL : List Char → List Char → Bool
  | [], _ => true
  | _ :: _, [] => false
  | a :: as, b :: bs => a == b && startsWithL as bs

/-- Char-list version of Python `str.endswith`. -/
def endsWithL (suffix s : List Char) : Bool :=
  startsWithL suffix.reverse s.reverse

/-- Char-list version of Python's `needle in hay` substring test. -/
def containsL (needle : List Char) : List Char → Bool
  | [] => startsWithL needle []
  | c :: rest => startsWithL needle (c :: rest) || containsL needle rest

/-- Fuel-indexed engine of `removeAll`; every step consumes at least one
character of hay, so `hay.length` fuel is always enough. -/
def removeAllFuel (needle : List Char) : ℕ → List Char → List Char
  | _, [] => []
  | 0, hay => hay
  | fuel + 1, c :: rest =>
    if 0 < needle.length && startsWithL needle (c :: rest) then
      removeAllFuel needle fuel (rest.drop (needle.length - 1))
    else
      c :: removeAllFuel needle fuel rest

/-- Python `str.replace(needle, '')`: delete every non-overlapping occurrence of
`needle`, scanning left to right. -/
def removeAll (needle hay : List Char) : List Char :=
  removeAllFuel needle hay.length hay

/-- Python `str.rstrip('/')`. -/
def rstripSlash (s : List Char) : List Char :=
  (s.reverse.dropWhile (fun c => c == '/')).reverse

/-- Python `str.split(sep)` for a one-character separator, accumulator form.
`"".split(sep)` is `[""]`, matching Python. -/
def splitCharAux (sep : Char) (cur : List Char) : List Char → List (List Char)
  | [] => [cur.reverse]
  | c :: rest =>
    if c == sep then cur.reverse :: splitCharAux sep [] rest
    else splitCharAux sep (c :: cur) rest

/-- Python `str.split(sep)` for a one-character separator. -/
def splitChar (sep : Char) (s : List Char) : List (List Char) :=
  splitCharAux sep [] s

/-- Characters Python `str.splitlines` treats as line boundaries. -/
def isLineBreak (c : Char) : Bool :=
  c == '\n' || c == '\r' || c == '\x0b' || c == '\x0c' ||
  c == '\x1c' || c == '\x1d' || c == '\x1e' || c == '\x85' ||
  c == '\u2028' || c == '\u2029'

/-- Python `str.splitlines`, accumulator form: every line-break character ends a
line, the pair `"\r\n"` counts as a single break (the flag records that the
previous character was `'\r'`, so its `'\n'` partner is swallowed), and a
trailing break does not open a final empty line. -/
def splitlinesAux : Bool → List Char → List Char → List (List Char)
  | _, cur, [] => if cur = [] then [] else [cur.reverse]
  | lastCR, cur, c :: rest =>
    if lastCR && c == '\n' then splitlinesAux false cur rest
    else if c == '\r' then cur.reverse :: splitlinesAux true [] rest
    else if isLineBreak c then cur.reverse :: splitlinesAux false [] rest
    else splitlinesAux false (c :: cur) rest

/-- Python `content.splitlines()` (scanner2.py line 97). -/
def splitlines (s : List Char) : List (List Char) :=
  splitlinesAux false [] s

/-- SUPPORTED_EXTENSIONS (scanner2.py lines 13-21). -/
def SUPPORTED_EXTENSIONS : List (List Char) :=
  [".c".toList, ".cc".toList, ".cpp".toList, ".cxx".toList, ".c++".toList,
   ".h".toList, ".hh".toList, ".hpp".toList, ".hxx".toList, ".h++".toList,
   ".java".toList, ".js".toList, ".m".toList, ".mm".toList,
   ".py".toList, ".rb".toList, ".swift".toList, ".go".toList, ".php".toList,
   ".pl".toList, ".pm".toList, ".t".toList,
   ".cs".toList, ".d".toList, ".erl".toList, ".ex".toList, ".exs".toList,
   ".f90".toList, ".f".toList, ".for".toList, ".f95".toList,
   ".groovy".toList, ".hs".toList, ".kt".toList, ".kts".toList, ".lua".toList,
   ".nb".toList, ".pas".toList, ".pp".toList,
   ".R".toList, ".rs".toList, ".scala".toList, ".sc".toList, ".sh".toList,
   ".bash".toList, ".sql".toList, ".ts".toList, ".tsx".toList,
   ".vb".toList, ".vbs".toList, ".gd".toList]

/-- MAX_FILES (scanner2.py line 25). -/
def MAX_FILES : ℕ := 2000

/-- One entry of the walk: the file's base name and the walked directory (root)
it was found in (scanner2.py lines 75-82; `path`/`local_path` are derived from
these two fields by `os.path` joins that no claim depends on). -/
structure SourceFile where
  name : List Char
  root : List Char
deriving DecidableEq

/-- The extension filter `any(file.endswith(ext) for ext in SUPPORTED_EXTENSIONS)`
(scanner2.py line 76). -/
def isSupported (fname : List Char) : Bool :=
  SUPPORTED_EXTENSIONS.any (fun ext => endsWithL ext fname)

/-- The inner `for file in files` loop of get_source_files_from_local
(scanner2.py lines 75-85): append each supported file, and after every file
(matched or not) return early with a truncation flag once
`len(source_files) >= max_files`. -/
def processFiles (root : List Char) (maxFiles : ℕ) :
    List (List Char) → List SourceFile → List SourceFile × Bool
  | [], acc => (acc, false)
  | f :: rest, acc =>
    let acc2 := if isSupported f then acc ++ [⟨f, root⟩] else acc
    if maxFiles ≤ acc2.length then (acc2, true)
    else processFiles root maxFiles rest acc2

/-- The outer `for root, _, files in os.walk(...)` loop of
get_source_files_from_local (scanner2.py lines 70-86): a directory whose walked
path contains the substring `.git` is skipped (`continue`), and an early return
from the inner loop ends the whole walk. -/
def walkGo (maxFiles : ℕ) : List (List Char × List (List Char)) → List SourceFile → List SourceFile
  | [], acc => acc
  | (root, files) :: rest, acc =>
    if containsL ".git".toList root then walkGo maxFiles rest acc
    else
      let p := processFiles root maxFiles files acc
      if p.2 then p.1 else walkGo maxFiles rest p.1

/-- get_source_files_from_local (scanner2.py lines 67-86).  The materialized
local tree is passed as the list of `os.walk` steps `(root, files)`. -/
def get_source_files_from_local (tree : List (List Char × List (List Char)))
    (maxFiles : ℕ) : List SourceFile :=
  walkGo maxFiles tree []

/-- Message of `raise` at scanner2.py line 131. -/
def noFilesMsg : String := "No analyzable source files found in repository."

/-- Message of `raise` at scanner2.py line 147. -/
def noProcessedMsg : String := "No analyzable files could be processed."

/-- Python's IndexError from an out-of-range list subscript. -/
def indexErrMsg : String := "IndexError: list index out of range"

/-- The URL-stripping steps of get_github_repo_info (scanner2.py lines 30-36):
rstrip slashes, drop the https/ssh GitHub prefix (Python `replace` removes all
occurrences, guarded by `startswith`), drop a trailing `.git`. -/
def stripRepoURL (url : List Char) : List Char :=
  let u1 := rstripSlash url
  let u2 := if startsWithL "https://github.com/".toList u1 then
              removeAll "https://github.com/".toList u1 else u1
  let u3 := if startsWithL "git@github.com:".toList u2 then
              removeAll "git@github.com:".toList u2 else u2
  if endsWithL ".git".toList u3 then u3.take (u3.length - 4) else u3

/-- get_github_repo_info (scanner2.py lines 28-38): strip the URL, split on
`/`, and return parts 0 and 1.  `parts[1]` raises IndexError when the split has
fewer than two parts. -/
def get_github_repo_info (url : List Char) : Except String (List Char × List Char) :=
  let parts := splitChar '/' (stripRepoURL url)
  match parts.get? 0, parts.get? 1 with
  | some a, some b => .ok (a, b)
  | _, _ => .error indexErrMsg

/-- The per-file analysis record (scanner2.py lines 104-109). -/
structure FileMetric where
  name : List Char
  size : ℕ
  complexity : ℕ
  churn : ℕ
deriving DecidableEq

/-- Python `sum(f.cyclomatic_complexity for f in analysis.function_list) or 1`
(scanner2.py line 102): the sum if it is nonzero, else 1. -/
def complexityOf (ccns : List ℕ) : ℕ :=
  if ccns.sum = 0 then 1 else ccns.sum

/-- analyze_file (scanner2.py lines 88-112).  `content = none` models an
unreadable file (the open/read raised and the outer `except` returned None);
`ccns = none` models lizard itself raising; `ccns = some l` gives lizard's
per-function cyclomatic complexities for the file. -/
def analyze_file (nm : List Char) (content : Option (List Char))
    (ccns : Option (List ℕ)) : Option FileMetric :=
  match content with
  | none => none
  | some c =>
    if c = [] then none
    else if splitlines c = [] then none
    else
      match ccns with
      | none => none
      | some l => some ⟨nm, max 1 (splitlines c).length, complexityOf l, 1⟩

/-- The fan-in of the ThreadPoolExecutor loop (scanner2.py lines 134-144):
results arrive in completion order (`order`, a permutation of the submitted
files, supplied by the environment), a `None` or raising analysis contributes
nothing, every successful analysis is appended. -/
def scheduler (order : List SourceFile) (oracle : SourceFile → Option FileMetric) :
    List FileMetric :=
  order.filterMap oracle

/-- A layout rectangle: origin `(x, y)`, width `dx`, depth `dy`
(the dict `{'x':…, 'y':…, 'dx':…, 'dy':…}` of the layout step). -/
structure Rect where
  x : ℚ
  y : ℚ
  dx : ℚ
  dy : ℚ
deriving DecidableEq

/-- Area of a rectangle. -/
def Rect.area (r : Rect) : ℚ := r.dx * r.dy

/-- Rectangle `r` lies inside rectangle `R`. -/
def RectInside (r R : Rect) : Prop :=
  R.x ≤ r.x ∧ r.x + r.dx ≤ R.x + R.dx ∧ R.y ≤ r.y ∧ r.y + r.dy ≤ R.y + R.dy

/-- The open interiors of `a` and `b` do not meet: the two rectangles do not
overlap (sharing an edge is allowed). -/
def RectDisjoint (a b : Rect) : Prop :=
  a.x + a.dx ≤ b.x ∨ b.x + b.dx ≤ a.x ∨ a.y + a.dy ≤ b.y ∨ b.y + b.dy ≤ a.y

/-- Modelled from the spec: the Layout Engine's rescale step
(spec section 4.4 step 1, `value_i = size_i * A^2 / sum(size)`), standing in for
`squarify.normalize_sizes` which is an external library not present in src/. -/
def normalize_sizes (sizes : List ℚ) (dx dy : ℚ) : List ℚ :=
  sizes.map (fun s => s * (dx * dy) / sizes.sum)

/-- Modelled from the spec: adjacent rectangles stacked upward along `y`, each
of the shared thickness `t` along `x` and of length `v / t` along `y`
(spec section 4.4 step 4), standing in for the external squarify layout. -/
def stackY (xpos t : ℚ) : ℚ → List ℚ → List Rect
  | _, [] => []
  | ypos, v :: vs => ⟨xpos, ypos, t, v / t⟩ :: stackY xpos t (ypos + v / t) vs

/-- Modelled from the spec: adjacent rectangles stacked rightward along `x`,
each of the shared thickness `t` along `y` and of length `v / t` along `x`
(spec section 4.4 step 4), standing in for the external squarify layout. -/
def stackX (ypos t : ℚ) : ℚ → List ℚ → List Rect
  | _, [] => []
  | xpos, v :: vs => ⟨xpos, ypos, v / t, t⟩ :: stackX ypos t (xpos + v / t) vs

/-- Modelled from the spec: lay a row along the left (shorter) side of the free
rectangle; the shared thickness `sum(vals) / dy` makes the row's total area
equal its total value (spec section 4.4 step 4). -/
def layoutRow (vals : List ℚ) (x y dy : ℚ) : List Rect :=
  stackY x (vals.sum / dy) y vals

/-- Modelled from the spec: lay a row along the bottom (shorter) side of the
free rectangle (spec section 4.4 step 4). -/
def layoutCol (vals : List ℚ) (x y dx : ℚ) : List Rect :=
  stackX y (vals.sum / dx) x vals

/-- Modelled from the spec: rows go along the currently shorter side of the
free rectangle (spec section 4.4 steps 3-4). -/
def layout (vals : List ℚ) (x y dx dy : ℚ) : List Rect :=
  if dy ≤ dx then layoutRow vals x y dy else layoutCol vals x y dx

/-- Modelled from the spec: the free rectangle shrunk by the consumed row's
thickness (spec section 4.4 step 5). -/
def leftover (vals : List ℚ) (x y dx dy : ℚ) : Rect :=
  if dy ≤ dx then ⟨x + vals.sum / dy, y, dx - vals.sum / dy, dy⟩
  else ⟨x, y + vals.sum / dx, dx, dy - vals.sum / dx⟩

/-- Aspect ratio `max(dx/dy, dy/dx)` of one rectangle. -/
def aspect (r : Rect) : ℚ := max (r.dx / r.dy) (r.dy / r.dx)

/-- Modelled from the spec: the worst aspect ratio across a laid-out row
(spec section 4.4 step 3). -/
def worstAspect (rs : List Rect) : ℚ :=
  (rs.map aspect).foldr max 0

/-- Modelled from the spec: grow the current row from the front of the
remaining list, stopping the moment adding the next value would increase the
worst aspect ratio (spec section 4.4 step 3). -/
def growSplit (x y dx dy : ℚ) : List ℚ → List ℚ → List ℚ × List ℚ
  | cur, [] => (cur, [])
  | cur, v :: rest =>
    if worstAspect (layout (cur ++ [v]) x y dx dy) ≤ worstAspect (layout cur x y dx dy)
    then growSplit x y dx dy (cur ++ [v]) rest
    else (cur, v :: rest)

/-- Modelled from the spec: the squarified treemap recursion (spec section 4.4
steps 2-5), standing in for `squarify.squarify` which is an external library not
present in src/.  A single remaining value consumes the entire remaining
rectangle; otherwise a row is grown, laid out along the shorter side, and the
rest recurses into the leftover rectangle. -/
def squarifySpec : List ℚ → ℚ → ℚ → ℚ → ℚ → List Rect
  | [], _, _, _, _ => []
  | [_], x, y, dx, dy => [⟨x, y, dx, dy⟩]
  | v :: w :: vs, x, y, dx, dy =>
    layout (growSplit x y dx dy [v] (w :: vs)).1 x y dx dy ++
      squarifySpec (growSplit x y dx dy [v] (w :: vs)).2
        (leftover (growSplit x y dx dy [v] (w :: vs)).1 x y dx dy).x
        (leftover (growSplit x y dx dy [v] (w :: vs)).1 x y dx dy).y
        (leftover (growSplit x y dx dy [v] (w :: vs)).1 x y dx dy).dx
        (leftover (growSplit x y dx dy [v] (w :: vs)).1 x y dx dy).dy
termination_by sizes _ _ _ _ => sizes.length
decreasing_by
  have H : ∀ (cur rest : List ℚ), ((growSplit x y dx dy cur rest).2).length ≤ rest.length := by
    intro cur rest
    induction rest generalizing cur with
    | nil => simp [growSplit]
    | cons a as ih =>
      simp only [growSplit]
      split
      · exact Nat.le_trans (ih (cur ++ [a])) (Nat.le_succ _)
      · exact Nat.le_refl _
  have h := H [v] (w :: vs)
  simp only [List.length_cons] at h ⊢
  omega

/-- The complexity-to-color bucketing (scanner2.py lines 161-171). -/
def colorFor (complexity : ℕ) : String :=
  if complexity ≤ 5 then "#00ffcc"
  else if complexity ≤ 15 then "#00ff88"
  else if complexity ≤ 30 then "#FFC300"
  else if complexity ≤ 50 then "#ff9900"
  else "#ff4444"

/-- The complexity-to-height scaling `max(1, complexity * 2)`
(scanner2.py line 173). -/
def heightFor (complexity : ℕ) : ℕ := max 1 (complexity * 2)

/-- One output tile (scanner2.py lines 175-182). -/
structure Tile where
  name : List Char
  x : ℚ
  y : ℚ
  w : ℚ
  d : ℚ
  h : ℕ
  color : String
  size : ℕ
deriving DecidableEq

/-- Builds one tile from a metric and its rectangle (scanner2.py lines 175-182). -/
def mkTile (m : FileMetric) (r : Rect) : Tile :=
  ⟨m.name, r.x, r.y, r.dx, r.dy, heightFor m.complexity, colorFor m.complexity, m.size⟩

/-- The assembler loop `for i, file_data in enumerate(files_to_render)` with the
subscript `rects[i]` (scanner2.py lines 159-182): a missing index raises
IndexError and aborts the run, discarding the partial list; extra rectangles
past the metric count are never touched. -/
def assembleAux (rects : List Rect) : List FileMetric → ℕ → Except String (List Tile)
  | [], _ => .ok []
  | m :: ms, i =>
    match rects.get? i with
    | none => .error indexErrMsg
    | some r =>
      match assembleAux rects ms (i + 1) with
      | .error e => .error e
      | .ok rest => .ok (mkTile m r :: rest)

/-- The City Assembler (scanner2.py lines 159-182). -/
def assemble (metrics : List FileMetric) (rects : List Rect) : Except String (List Tile) :=
  assembleAux rects metrics 0

/-- build_city_from_github (scanner2.py lines 114-190).  `tree` is the walked
file tree of the cloned repository (cloning itself is external I/O), `oracle`
is the per-file analysis (see `analyze_file`), `order` is the nondeterministic
completion order of the thread pool.  `dynamic_area = max(150, int(n**0.5*45))`
is modelled with the exact integer square root `Nat.sqrt (2025 * n)`, which is
`floor(45 * sqrt(n))` computed without floating point. -/
def build_city_from_github (url : List Char)
    (tree : List (List Char × List (List Char)))
    (oracle : SourceFile → Option FileMetric)
    (order : List SourceFile) : Except String (List Tile) :=
  match get_github_repo_info url with
  | .error e => .error e
  | .ok _ =>
    let files := get_source_files_from_local tree MAX_FILES
    if files = [] then .error noFilesMsg
    else
      let files_to_render := scheduler order oracle
      if files_to_render = [] then .error noProcessedMsg
      else
        let dynamic_area : ℕ := max 150 (Nat.sqrt (2025 * files_to_render.length))
        let sizes : List ℕ := files_to_render.map (fun f => f.size)
        let sizes2 : List ℕ :=
          if sizes.sum = 0 then List.replicate files_to_render.length 1 else sizes
        let A : ℚ := (dynamic_area : ℚ)
        let values := normalize_sizes (sizes2.map (Nat.cast : ℕ → ℚ)) A A
        let rects := squarifySpec values 0 0 A A
        assemble files_to_render rects

/-- Stated from the spec's words, for the refinement check of the lineCount
claim: "lineCount = count of line breaks, floored at 1". -/
def specLineCount (s : List Char) : ℕ :=
  max 1 (s.countP (fun c => isLineBreak c))

deriving instance DecidableEq for Except

lemma complexityOf_eq_max (l : List ℕ) : complexityOf l = max 1 l.sum := by
  unfold complexityOf
  split <;> omega

lemma analyze_file_some (nm content : List Char) (ccns : List ℕ) (m : FileMetric)
    (h : analyze_file nm (some content) (some ccns) = some m) :
    content ≠ [] ∧ splitlines content ≠ [] ∧
      m = ⟨nm, max 1 (splitlines content).length, complexityOf ccns, 1⟩ := by
  simp only [analyze_file] at h
  by_cases h1 : content = []
  · simp [h1] at h
  by_cases h2 : splitlines content = []
  · simp [h1, h2] at h
  simp only [h1, h2, if_false] at h
  exact ⟨h1, h2, (Option.some_inj.mp h).symm⟩

/-- C3: in a file where zero functions are detected the analyzer reports
complexity 1 (never 0), and in general the reported complexity is the sum of
the per-function cyclomatic complexities floored at 1. -/
theorem analyzer_complexity_floor (nm content : List Char) (ccns : List ℕ)
    (m : FileMetric) (h : analyze_file nm (some content) (some ccns) = some m) :
    m.complexity = max 1 ccns.sum ∧ (ccns = [] → m.complexity = 1) ∧
      m.complexity ≠ 0 := by
  obtain ⟨-, -, hm⟩ := analyze_file_some nm content ccns m h
  subst hm
  refine ⟨complexityOf_eq_max ccns, fun hc => ?_, ?_⟩
  · subst hc; rfl
  · show complexityOf ccns ≠ 0
    rw [complexityOf_eq_max]; omega

/-- Witness for `analyzer_complexity_floor` at the one-line file `"x"` with no
detected functions. -/
theorem analyzer_complexity_floor_witness :
    (⟨[], 1, 1, 1⟩ : FileMetric).complexity = max 1 (List.sum ([] : List ℕ)) ∧
      (([] : List ℕ) = [] → (⟨[], 1, 1, 1⟩ : FileMetric).complexity = 1) ∧
      (⟨[], 1, 1, 1⟩ : FileMetric).complexity ≠ 0 :=
  analyzer_complexity_floor [] ['x'] [] ⟨[], 1, 1, 1⟩ (by decide)

/-- C4 counterexample: the content `"a\nb"` (two lines separated by one line
break) is analyzed with lineCount 2, while the claim's "count of line breaks,
floored at 1" predicts 1. -/
theorem lineCount_cex :
    analyze_file [] (some ['a', '\n', 'b']) (some []) = some ⟨[], 2, 1, 1⟩ ∧
      specLineCount ['a', '\n', 'b'] = 1 ∧ (2 : ℕ) ≠ 1 := by
  decide

lemma splitlinesAux_length_noCR (s : List Char)
    (hnb : ∀ c ∈ s, isLineBreak c = true → c = '\n') :
    ∀ cur, (splitlinesAux false cur s).length =
      s.count '\n' + (if s = [] then (if cur = [] then 0 else 1)
                      else if s.getLast? = some '\n' then 0 else 1) := by
  induction s with
  | nil =>
    intro cur
    by_cases hc : cur = [] <;> simp [splitlinesAux, hc]
  | cons c rest ih =>
    intro cur
    have hcr : c ≠ '\r' := by
      intro he
      subst he
      have := hnb '\r' (by simp) (by decide)
      exact absurd this (by decide)
    have ihr := ih (fun d hd => hnb d (List.mem_cons_of_mem _ hd))
    by_cases hbr : isLineBreak c = true
    · have hcn : c = '\n' := hnb c (by simp) hbr
      subst hcn
      have step : splitlinesAux false cur ('\n' :: rest) =
          cur.reverse :: splitlinesAux false [] rest := rfl
      rw [step, List.length_cons, ihr []]
      cases rest with
      | nil => simp
      | cons d rest2 =>
        rw [List.getLast?_cons_cons]
        simp only [List.count_cons, List.cons_ne_self, reduceCtorEq, if_false,
          beq_self_eq_true, if_true]
        split <;> simp_all <;> omega
    · have hcn : c ≠ '\n' := fun he => by subst he; exact hbr (by decide)
      have step : splitlinesAux false cur (c :: rest) =
          splitlinesAux false (c :: cur) rest := by
        have e1 : (c == '\r') = false := by simpa using hcr
        have e2 : isLineBreak c = false := by simpa using hbr
        simp [splitlinesAux, e1, e2]
      rw [step, ihr (c :: cur)]
      cases rest with
      | nil => simp [List.count_cons, hcn]
      | cons d rest2 =>
        rw [List.getLast?_cons_cons]
        simp only [List.count_cons, List.cons_ne_self, reduceCtorEq, if_false]
        have e3 : (d == c || False) = (d == c) := by simp
        simp [hcn]

/-- C4 amended: the reported lineCount is the number of lines produced by
splitting the content at line breaks (a trailing break does not add an empty
final line), floored at 1; for content whose only break character is `'\n'`
this is the count of line breaks plus one when the content does not end in a
break — so two lines separated by one break give lineCount 2, not 1. -/
theorem lineCount_amended (nm content : List Char) (ccns : List ℕ)
    (m : FileMetric) (h : analyze_file nm (some content) (some ccns) = some m) :
    m.size = max 1 (splitlines content).length ∧
      ((∀ c ∈ content, isLineBreak c = true → c = '\n') →
        m.size = max 1 (content.count '\n' +
          (if content.getLast? = some '\n' then 0 else 1))) := by
  obtain ⟨hne, -, hm⟩ := analyze_file_some nm content ccns m h
  subst hm
  refine ⟨rfl, fun hnb => ?_⟩
  simp only [splitlines]
  rw [splitlinesAux_length_noCR content hnb []]
  simp [hne]

/-- Witness for `lineCount_amended` at the content `"a\nb"`. -/
theorem lineCount_amended_witness :
    (⟨[], 2, 1, 1⟩ : FileMetric).size = max 1 (splitlines ['a', '\n', 'b']).length ∧
      ((∀ c ∈ ['a', '\n', 'b'], isLineBreak c = true → c = '\n') →
        (⟨[], 2, 1, 1⟩ : FileMetric).size = max 1 ((['a', '\n', 'b'].count '\n') +
          (if ['a', '\n', 'b'].getLast? = some '\n' then 0 else 1))) :=
  lineCount_amended [] ['a', '\n', 'b'] [] ⟨[], 2, 1, 1⟩ (by decide)

/-- C7: the visual encoder maps a complexity score to one of five colors by the
fixed ascending thresholds 5, 15, 30, 50, lowest-complexity bucket first, with
boundary-exact behavior at 5, 6, 15, 16, 30, 31, 50 and 51. -/
theorem encoder_buckets (c : ℕ) :
    (c ≤ 5 → colorFor c = "#00ffcc") ∧
    (6 ≤ c → c ≤ 15 → colorFor c = "#00ff88") ∧
    (16 ≤ c → c ≤ 30 → colorFor c = "#FFC300") ∧
    (31 ≤ c → c ≤ 50 → colorFor c = "#ff9900") ∧
    (51 ≤ c → colorFor c = "#ff4444") ∧
    colorFor 5 = "#00ffcc" ∧ colorFor 6 = "#00ff88" ∧ colorFor 15 = "#00ff88" ∧
    colorFor 16 = "#FFC300" ∧ colorFor 30 = "#FFC300" ∧ colorFor 31 = "#ff9900" ∧
    colorFor 50 = "#ff9900" ∧ colorFor 51 = "#ff4444" := by
  refine ⟨?_, ?_, ?_, ?_, ?_, rfl, rfl, rfl, rfl, rfl, rfl, rfl, rfl⟩
  · intro h; simp [colorFor, h]
  · intro h1 h2
    have n1 : ¬ c ≤ 5 := by omega
    simp [colorFor, n1, h2]
  · intro h1 h2
    have n1 : ¬ c ≤ 5 := by omega
    have n2 : ¬ c ≤ 15 := by omega
    simp [colorFor, n1, n2, h2]
  · intro h1 h2
    have n1 : ¬ c ≤ 5 := by omega
    have n2 : ¬ c ≤ 15 := by omega
    have n3 : ¬ c ≤ 30 := by omega
    simp [colorFor, n1, n2, n3, h2]
  · intro h
    have n1 : ¬ c ≤ 5 := by omega
    have n2 : ¬ c ≤ 15 := by omega
    have n3 : ¬ c ≤ 30 := by omega
    have n4 : ¬ c ≤ 50 := by omega
    simp [colorFor, n1, n2, n3, n4]

/-- Witness for `encoder_buckets`: complexity 16 lands in the third bucket. -/
theorem encoder_buckets_witness : colorFor 16 = "#FFC300" :=
  (encoder_buckets 16).2.2.1 (by decide) (by decide)

lemma stackY_length (xpos t : ℚ) : ∀ (vs : List ℚ) (ypos : ℚ),
    (stackY xpos t ypos vs).length = vs.length := by
  intro vs
  induction vs with
  | nil => intro ypos; rfl
  | cons v vs ih => intro ypos; simp [stackY, ih]

lemma stackY_area (xpos t : ℚ) (ht : t ≠ 0) : ∀ (vs : List ℚ) (ypos : ℚ),
    (stackY xpos t ypos vs).map Rect.area = vs := by
  intro vs
  induction vs with
  | nil => intro ypos; rfl
  | cons v vs ih =>
    intro ypos
    simp only [stackY, List.map_cons, ih]
    congr 1
    show t * (v / t) = v
    rw [mul_comm, div_mul_cancel₀ v ht]

lemma stackY_mem (xpos t : ℚ) (ht : 0 < t) : ∀ (vs : List ℚ) (ypos : ℚ),
    (∀ v ∈ vs, 0 < v) →
    ∀ r ∈ stackY xpos t ypos vs,
      r.x = xpos ∧ r.dx = t ∧ ypos ≤ r.y ∧ 0 < r.dy ∧
        r.y + r.dy ≤ ypos + vs.sum / t := by
  intro vs
  induction vs with
  | nil => intro ypos _ r hr; simp [stackY] at hr
  | cons v vs ih =>
    intro ypos hpos r hr
    have hv : 0 < v := hpos v (by simp)
    have hvt : 0 < v / t := div_pos hv ht
    have hsum : 0 ≤ vs.sum :=
      List.sum_nonneg (fun a ha => le_of_lt (hpos a (by simp [ha])))
    have hbound : ypos + (v :: vs).sum / t = ypos + v / t + vs.sum / t := by
      rw [List.sum_cons, add_div, add_assoc]
    simp only [stackY] at hr
    rcases List.mem_cons.mp hr with he | htail
    · subst he
      refine ⟨rfl, rfl, le_refl _, hvt, ?_⟩
      rw [hbound]
      have : 0 ≤ vs.sum / t := div_nonneg hsum ht.le
      simp only []
      linarith
    · have hm := ih (ypos + v / t) (fun a ha => hpos a (by simp [ha])) r htail
      refine ⟨hm.1, hm.2.1, ?_, hm.2.2.2.1, ?_⟩
      · linarith [hm.2.2.1]
      · rw [hbound]
        linarith [hm.2.2.2.2]

lemma stackY_pairwise (xpos t : ℚ) (ht : 0 < t) : ∀ (vs : List ℚ) (ypos : ℚ),
    (∀ v ∈ vs, 0 < v) → List.Pairwise RectDisjoint (stackY xpos t ypos vs) := by
  intro vs
  induction vs with
  | nil => intro ypos _; exact List.Pairwise.nil
  | cons v vs ih =>
    intro ypos hpos
    simp only [stackY]
    refine List.Pairwise.cons ?_ (ih (ypos + v / t) (fun a ha => hpos a (by simp [ha])))
    intro r hr
    have hm := stackY_mem xpos t ht vs (ypos + v / t)
      (fun a ha => hpos a (by simp [ha])) r hr
    right; right; left
    exact hm.2.2.1

lemma stackX_length (ypos t : ℚ) : ∀ (vs : List ℚ) (xpos : ℚ),
    (stackX ypos t xpos vs).length = vs.length := by
  intro vs
  induction vs with
  | nil => intro xpos; rfl
  | cons v vs ih => intro xpos; simp [stackX, ih]

lemma stackX_area (ypos t : ℚ) (ht : t ≠ 0) : ∀ (vs : List ℚ) (xpos : ℚ),
    (stackX ypos t xpos vs).map Rect.area = vs := by
  intro vs
  induction vs with
  | nil => intro xpos; rfl
  | cons v vs ih =>
    intro xpos
    simp only [stackX, List.map_cons, ih]
    congr 1
    show v / t * t = v
    rw [div_mul_cancel₀ v ht]

lemma stackX_mem (ypos t : ℚ) (ht : 0 < t) : ∀ (vs : List ℚ) (xpos : ℚ),
    (∀ v ∈ vs, 0 < v) →
    ∀ r ∈ stackX ypos t xpos vs,
      r.y = ypos ∧ r.dy = t ∧ xpos ≤ r.x ∧ 0 < r.dx ∧
        r.x + r.dx ≤ xpos + vs.sum / t := by
  intro vs
  induction vs with
  | nil => intro xpos _ r hr; simp [stackX] at hr
  | cons v vs ih =>
    intro xpos hpos r hr
    have hv : 0 < v := hpos v (by simp)
    have hvt : 0 < v / t := div_pos hv ht
    have hsum : 0 ≤ vs.sum :=
      List.sum_nonneg (fun a ha => le_of_lt (hpos a (by simp [ha])))
    have hbound : xpos + (v :: vs).sum / t = xpos + v / t + vs.sum / t := by
      rw [List.sum_cons, add_div, add_assoc]
    simp only [stackX] at hr
    rcases List.mem_cons.mp hr with he | htail
    · subst he
      refine ⟨rfl, rfl, le_refl _, hvt, ?_⟩
      rw [hbound]
      have : 0 ≤ vs.sum / t := div_nonneg hsum ht.le
      simp only []
      linarith
    · have hm := ih (xpos + v / t) (fun a ha => hpos a (by simp [ha])) r htail
      refine ⟨hm.1, hm.2.1, ?_, hm.2.2.2.1, ?_⟩
      · linarith [hm.2.2.1]
      · rw [hbound]
        linarith [hm.2.2.2.2]

lemma stackX_pairwise (ypos t : ℚ) (ht : 0 < t) : ∀ (vs : List ℚ) (xpos : ℚ),
    (∀ v ∈ vs, 0 < v) → List.Pairwise RectDisjoint (stackX ypos t xpos vs) := by
  intro vs
  induction vs with
  | nil => intro xpos _; exact List.Pairwise.nil
  | cons v vs ih =>
    intro xpos hpos
    simp only [stackX]
    refine List.Pairwise.cons ?_ (ih (xpos + v / t) (fun a ha => hpos a (by simp [ha])))
    intro r hr
    have hm := stackX_mem ypos t ht vs (xpos + v / t)
      (fun a ha => hpos a (by simp [ha])) r hr
    left
    exact hm.2.2.1

lemma growSplit_append (x y dx dy : ℚ) :
    ∀ (rest cur : List ℚ),
      (growSplit x y dx dy cur rest).1 ++ (growSplit x y dx dy cur rest).2 =
        cur ++ rest := by
  intro rest
  induction rest with
  | nil => intro cur; simp [growSplit]
  | cons a as ih =>
    intro cur
    simp only [growSplit]
    split
    · rw [ih (cur ++ [a])]; simp
    · rfl

lemma growSplit_fst_ne (x y dx dy : ℚ) :
    ∀ (rest cur : List ℚ), cur ≠ [] → (growSplit x y dx dy cur rest).1 ≠ [] := by
  intro rest
  induction rest with
  | nil => intro cur h; simpa [growSplit] using h
  | cons a as ih =>
    intro cur h
    simp only [growSplit]
    split
    · exact ih (cur ++ [a]) (by simp)
    · exact h

lemma layout_length (vals : List ℚ) (x y dx dy : ℚ) :
    (layout vals x y dx dy).length = vals.length := by
  unfold layout layoutRow layoutCol
  split
  · exact stackY_length _ _ _ _
  · exact stackX_length _ _ _ _

lemma squarify_len_aux : ∀ (n : ℕ) (sizes : List ℚ) (x y dx dy : ℚ),
    sizes.length ≤ n → (squarifySpec sizes x y dx dy).length = sizes.length := by
  intro n
  induction n with
  | zero =>
    intro sizes x y dx dy h
    have : sizes = [] := List.eq_nil_of_length_eq_zero (Nat.le_zero.mp h)
    subst this
    simp [squarifySpec]
  | succ n ih =>
    intro sizes x y dx dy h
    rcases sizes with _ | ⟨v, _ | ⟨w, vs⟩⟩
    · simp [squarifySpec]
    · simp [squarifySpec]
    · rw [squarifySpec, List.length_append, layout_length]
      have happ := growSplit_append x y dx dy (w :: vs) [v]
      have hne := growSplit_fst_ne x y dx dy (w :: vs) [v] (by simp)
      have hlens := congrArg List.length happ
      simp only [List.length_append, List.singleton_append, List.length_cons] at hlens h
      have hc : 1 ≤ (growSplit x y dx dy [v] (w :: vs)).1.length := by
        rcases Nat.eq_zero_or_pos (growSplit x y dx dy [v] (w :: vs)).1.length with h0 | h1
        · exact absurd (List.length_eq_zero.mp h0) hne
        · exact h1
      rw [ih (growSplit x y dx dy [v] (w :: vs)).2 _ _ _ _ (by omega)]
      simp only [List.length_cons]
      omega

/-- The number of rectangles the treemap produces always equals the number of
sizes handed to it. -/
lemma squarify_len (sizes : List ℚ) (x y dx dy : ℚ) :
    (squarifySpec sizes x y dx dy).length = sizes.length :=
  squarify_len_aux sizes.length sizes x y dx dy (le_refl _)

lemma row_step (cur rem : List ℚ) (x y dx dy : ℚ) (rects2 : List Rect)
    (hposc : ∀ v ∈ cur, 0 < v) (hcne : cur ≠ [])
    (hremnn : 0 ≤ rem.sum)
    (hsum : cur.sum + rem.sum = dx * dy)
    (hdy : 0 < dy)
    (hlen2 : rects2.length = rem.length)
    (harea2 : rects2.map Rect.area = rem)
    (hin2 : ∀ r ∈ rects2, RectInside r ⟨x + cur.sum / dy, y, dx - cur.sum / dy, dy⟩)
    (hpw2 : List.Pairwise RectDisjoint rects2) :
    (layoutRow cur x y dy ++ rects2).length = cur.length + rem.length ∧
    (layoutRow cur x y dy ++ rects2).map Rect.area = cur ++ rem ∧
    (∀ r ∈ layoutRow cur x y dy ++ rects2, RectInside r ⟨x, y, dx, dy⟩) ∧
    List.Pairwise RectDisjoint (layoutRow cur x y dy ++ rects2) := by
  have hsc : 0 < cur.sum := List.sum_pos cur hposc hcne
  have ht : 0 < cur.sum / dy := div_pos hsc hdy
  have htdx : cur.sum / dy ≤ dx := by
    rw [div_le_iff₀ hdy]
    nlinarith
  have hdyt : cur.sum / (cur.sum / dy) = dy := by
    rw [div_div_eq_mul_div, mul_comm, mul_div_assoc, div_self (ne_of_gt hsc), mul_one]
  have hmem := stackY_mem x (cur.sum / dy) ht cur y hposc
  refine ⟨?_, ?_, ?_, ?_⟩
  · rw [List.length_append, hlen2]
    unfold layoutRow
    rw [stackY_length]
  · rw [List.map_append, harea2]
    unfold layoutRow
    rw [stackY_area x (cur.sum / dy) (ne_of_gt ht) cur y]
  · intro r hr
    rcases List.mem_append.mp hr with h1 | h2
    · obtain ⟨hx, hdx', hy1, hdy', hy2⟩ := hmem r h1
      rw [hdyt] at hy2
      refine ⟨le_of_eq hx.symm, ?_, hy1, hy2⟩
      rw [hx, hdx']
      linarith
    · obtain ⟨ha, hb, hc, hd⟩ := hin2 r h2
      simp only [] at ha hb hc hd
      refine ⟨by linarith, by linarith, hc, hd⟩
  · rw [List.pairwise_append]
    refine ⟨stackY_pairwise x (cur.sum / dy) ht cur y hposc, hpw2, ?_⟩
    intro a ha b hb
    obtain ⟨hax, hadx, -, -, -⟩ := hmem a ha
    obtain ⟨hbx, -, -, -⟩ := hin2 b hb
    left
    rw [hax, hadx]
    exact hbx

lemma col_step (cur rem : List ℚ) (x y dx dy : ℚ) (rects2 : List Rect)
    (hposc : ∀ v ∈ cur, 0 < v) (hcne : cur ≠ [])
    (hremnn : 0 ≤ rem.sum)
    (hsum : cur.sum + rem.sum = dx * dy)
    (hdx : 0 < dx)
    (hlen2 : rects2.length = rem.length)
    (harea2 : rects2.map Rect.area = rem)
    (hin2 : ∀ r ∈ rects2, RectInside r ⟨x, y + cur.sum / dx, dx, dy - cur.sum / dx⟩)
    (hpw2 : List.Pairwise RectDisjoint rects2) :
    (layoutCol cur x y dx ++ rects2).length = cur.length + rem.length ∧
    (layoutCol cur x y dx ++ rects2).map Rect.area = cur ++ rem ∧
    (∀ r ∈ layoutCol cur x y dx ++ rects2, RectInside r ⟨x, y, dx, dy⟩) ∧
    List.Pairwise RectDisjoint (layoutCol cur x y dx ++ rects2) := by
  have hsc : 0 < cur.sum := List.sum_pos cur hposc hcne
  have ht : 0 < cur.sum / dx := div_pos hsc hdx
  have htdy : cur.sum / dx ≤ dy := by
    rw [div_le_iff₀ hdx]
    nlinarith
  have hdxt : cur.sum / (cur.sum / dx) = dx := by
    rw [div_div_eq_mul_div, mul_comm, mul_div_assoc, div_self (ne_of_gt hsc), mul_one]
  have hmem := stackX_mem y (cur.sum / dx) ht cur x hposc
  refine ⟨?_, ?_, ?_, ?_⟩
  · rw [List.length_append, hlen2]
    unfold layoutCol
    rw [stackX_length]
  · rw [List.map_append, harea2]
    unfold layoutCol
    rw [stackX_area y (cur.sum / dx) (ne_of_gt ht) cur x]
  · intro r hr
    rcases List.mem_append.mp hr with h1 | h2
    · obtain ⟨hy, hdy', hx1, hdx', hx2⟩ := hmem r h1
      rw [hdxt] at hx2
      refine ⟨hx1, hx2, le_of_eq hy.symm, ?_⟩
      rw [hy, hdy']
      linarith
    · obtain ⟨ha, hb, hc, hd⟩ := hin2 r h2
      simp only [] at ha hb hc hd
      refine ⟨ha, hb, by linarith, by linarith⟩
  · rw [List.pairwise_append]
    refine ⟨stackX_pairwise y (cur.sum / dx) ht cur x hposc, hpw2, ?_⟩
    intro a ha b hb
    obtain ⟨hay, hady, -, -, -⟩ := hmem a ha
    obtain ⟨-, -, hby, -⟩ := hin2 b hb
    right; right; left
    rw [hay, hady]
    exact hby

lemma squarify_ok : ∀ (n : ℕ) (sizes : List ℚ) (x y dx dy : ℚ),
    sizes.length ≤ n →
    (∀ s ∈ sizes, 0 < s) → sizes.sum = dx * dy → 0 < dx → 0 < dy →
    (squarifySpec sizes x y dx dy).length = sizes.length ∧
    (squarifySpec sizes x y dx dy).map Rect.area = sizes ∧
    (∀ r ∈ squarifySpec sizes x y dx dy, RectInside r ⟨x, y, dx, dy⟩) ∧
    List.Pairwise RectDisjoint (squarifySpec sizes x y dx dy) := by
  intro n
  induction n with
  | zero =>
    intro sizes x y dx dy h _ _ _ _
    have : sizes = [] := List.eq_nil_of_length_eq_zero (Nat.le_zero.mp h)
    subst this
    simp [squarifySpec]
  | succ n ih =>
    intro sizes x y dx dy h hpos hsum hdx hdy
    rcases sizes with _ | ⟨v, _ | ⟨w, vs⟩⟩
    · simp [squarifySpec]
    · refine ⟨by simp [squarifySpec], ?_, ?_, ?_⟩
      · simp only [squarifySpec, List.map_cons, List.map_nil, Rect.area]
        rw [List.sum_cons, List.sum_nil, add_zero] at hsum
        rw [hsum]
      · intro r hr
        simp only [squarifySpec, List.mem_singleton] at hr
        subst hr
        exact ⟨le_refl _, le_refl _, le_refl _, le_refl _⟩
      · simp [squarifySpec]
    · have happ := growSplit_append x y dx dy (w :: vs) [v]
      simp only [List.singleton_append] at happ
      have hcne := growSplit_fst_ne x y dx dy (w :: vs) [v] (by simp)
      set cur := (growSplit x y dx dy [v] (w :: vs)).1 with hcur
      set rem := (growSplit x y dx dy [v] (w :: vs)).2 with hrem
      clear_value cur rem
      have hposc : ∀ s ∈ cur, 0 < s := by
        intro s hs
        exact hpos s (by rw [← happ]; exact List.mem_append_left _ hs)
      have hposr : ∀ s ∈ rem, 0 < s := by
        intro s hs
        exact hpos s (by rw [← happ]; exact List.mem_append_right _ hs)
      have hsums : cur.sum + rem.sum = dx * dy := by
        rw [← List.sum_append, happ]
        exact hsum
      have hremnn : 0 ≤ rem.sum :=
        List.sum_nonneg (fun a ha => le_of_lt (hposr a ha))
      have hlenrem : rem.length ≤ n := by
        have hlens := congrArg List.length happ
        have hc : 1 ≤ cur.length := by
          rcases Nat.eq_zero_or_pos cur.length with h0 | h1
          · exact absurd (List.length_eq_zero.mp h0) hcne
          · exact h1
        simp only [List.length_append, List.singleton_append, List.length_cons] at hlens h
        omega
      have hlentot : cur.length + rem.length = (v :: w :: vs).length := by
        have hlens := congrArg List.length happ
        simp only [List.length_append, List.singleton_append] at hlens
        exact hlens
      rw [squarifySpec]
      by_cases hrow : dy ≤ dx
      · have hlay : layout cur x y dx dy = layoutRow cur x y dy := by
          unfold layout
          rw [if_pos hrow]
        have hleft : leftover cur x y dx dy =
            ⟨x + cur.sum / dy, y, dx - cur.sum / dy, dy⟩ := by
          unfold leftover
          rw [if_pos hrow]
        rw [← hcur, ← hrem, hlay, hleft]
        dsimp only
        by_cases hremne : rem = []
        · subst hremne
          have step := row_step cur [] x y dx dy [] hposc hcne (by simp)
            (by simpa using hsums) hdy (by simp) (by simp)
            (by intro r hr; simp at hr) List.Pairwise.nil
          simp only [squarifySpec, List.append_nil] at step ⊢
          obtain ⟨s1, s2, s3, s4⟩ := step
          refine ⟨by rw [s1]; simpa using hlentot, by rw [s2]; simpa using happ, s3, s4⟩
        · have hsc : 0 < cur.sum := List.sum_pos cur hposc hcne
          have hsr : 0 < rem.sum := List.sum_pos rem hposr hremne
          have htdy : cur.sum / dy * dy = cur.sum := div_mul_cancel₀ _ (ne_of_gt hdy)
          have hsum2 : rem.sum = (dx - cur.sum / dy) * dy := by
            rw [sub_mul, htdy]
            linarith
          have hdx2 : 0 < dx - cur.sum / dy := by
            nlinarith
          have IH := ih rem (x + cur.sum / dy) y (dx - cur.sum / dy) dy hlenrem
            hposr hsum2 hdx2 hdy
          obtain ⟨i1, i2, i3, i4⟩ := IH
          have step := row_step cur rem x y dx dy
            (squarifySpec rem (x + cur.sum / dy) y (dx - cur.sum / dy) dy)
            hposc hcne hremnn hsums hdy i1 i2 i3 i4
          obtain ⟨s1, s2, s3, s4⟩ := step
          refine ⟨?_, ?_, s3, s4⟩
          · rw [s1, hlentot]
          · rw [s2, happ]
      · have hcol : ¬ dy ≤ dx := hrow
        have hlay : layout cur x y dx dy = layoutCol cur x y dx := by
          unfold layout
          rw [if_neg hcol]
        have hleft : leftover cur x y dx dy =
            ⟨x, y + cur.sum / dx, dx, dy - cur.sum / dx⟩ := by
          unfold leftover
          rw [if_neg hcol]
        rw [← hcur, ← hrem, hlay, hleft]
        dsimp only
        by_cases hremne : rem = []
        · subst hremne
          have step := col_step cur [] x y dx dy [] hposc hcne (by simp)
            (by simpa using hsums) hdx (by simp) (by simp)
            (by intro r hr; simp at hr) List.Pairwise.nil
          simp only [squarifySpec, List.append_nil] at step ⊢
          obtain ⟨s1, s2, s3, s4⟩ := step
          refine ⟨by rw [s1]; simpa using hlentot, by rw [s2]; simpa using happ, s3, s4⟩
        · have hsc : 0 < cur.sum := List.sum_pos cur hposc hcne
          have hsr : 0 < rem.sum := List.sum_pos rem hposr hremne
          have htdx : cur.sum / dx * dx = cur.sum := div_mul_cancel₀ _ (ne_of_gt hdx)
          have hsum2 : rem.sum = dx * (dy - cur.sum / dx) := by
            rw [mul_sub, mul_comm dx (cur.sum / dx), htdx]
            linarith
          have hdy2 : 0 < dy - cur.sum / dx := by
            nlinarith
          have IH := ih rem x (y + cur.sum / dx) dx (dy - cur.sum / dx) hlenrem
            hposr hsum2 hdx hdy2
          obtain ⟨i1, i2, i3, i4⟩ := IH
          have step := col_step cur rem x y dx dy
            (squarifySpec rem x (y + cur.sum / dx) dx (dy - cur.sum / dx))
            hposc hcne hremnn hsums hdx i1 i2 i3 i4
          obtain ⟨s1, s2, s3, s4⟩ := step
          refine ⟨?_, ?_, s3, s4⟩
          · rw [s1, hlentot]
          · rw [s2, happ]

lemma sum_map_mul_div (l : List ℚ) (c T : ℚ) :
    (l.map (fun s => s * c / T)).sum = l.sum * c / T := by
  induction l with
  | nil => simp
  | cons a as ih =>
    simp only [List.map_cons, List.sum_cons, ih]
    ring

lemma normalize_sizes_sum (sizes : List ℚ) (dx dy : ℚ) (h : sizes.sum ≠ 0) :
    (normalize_sizes sizes dx dy).sum = dx * dy := by
  unfold normalize_sizes
  rw [sum_map_mul_div, mul_comm, mul_div_assoc, div_self h, mul_one]

lemma normalize_sizes_pos (sizes : List ℚ) (dx dy : ℚ)
    (hpos : ∀ s ∈ sizes, 0 < s) (hne : sizes ≠ []) (hd : 0 < dx * dy) :
    ∀ v ∈ normalize_sizes sizes dx dy, 0 < v := by
  intro v hv
  unfold normalize_sizes at hv
  obtain ⟨s, hs, rfl⟩ := List.mem_map.mp hv
  have hS : 0 < sizes.sum := List.sum_pos sizes hpos hne
  exact div_pos (mul_pos (hpos s hs) hd) hS

/-- C1: for every non-empty list of positive sizes and every target square of
side `A`, the layout step (rescale + squarified treemap, modelled from the
spec since the squarify library is not in src/) produces exactly one rectangle
per size, with non-negative areas, each area equal to the rescaled value
`size * A^2 / sum(sizes)` (so areas are proportional to sizes with the constant
ratio `A^2 / sum`), total area exactly `A^2`, and no two rectangles
overlapping. -/
theorem layout_engine_ok (sizes : List ℚ) (A : ℚ)
    (hne : sizes ≠ []) (hpos : ∀ s ∈ sizes, 0 < s) (hA : 0 < A) :
    (squarifySpec (normalize_sizes sizes A A) 0 0 A A).length = sizes.length ∧
    (squarifySpec (normalize_sizes sizes A A) 0 0 A A).map Rect.area =
      sizes.map (fun s => s * (A * A) / sizes.sum) ∧
    (∀ r ∈ squarifySpec (normalize_sizes sizes A A) 0 0 A A, 0 ≤ Rect.area r) ∧
    ((squarifySpec (normalize_sizes sizes A A) 0 0 A A).map Rect.area).sum = A * A ∧
    List.Pairwise RectDisjoint (squarifySpec (normalize_sizes sizes A A) 0 0 A A) := by
  have hS : 0 < sizes.sum := List.sum_pos sizes hpos hne
  have hAA : 0 < A * A := mul_pos hA hA
  have hvpos := normalize_sizes_pos sizes A A hpos hne hAA
  have hvsum : (normalize_sizes sizes A A).sum = A * A :=
    normalize_sizes_sum sizes A A (ne_of_gt hS)
  obtain ⟨c1, c2, c3, c4⟩ := squarify_ok (normalize_sizes sizes A A).length
    (normalize_sizes sizes A A) 0 0 A A (le_refl _) hvpos hvsum hA hA
  have hlen : (normalize_sizes sizes A A).length = sizes.length := by
    unfold normalize_sizes
    rw [List.length_map]
  refine ⟨by rw [c1, hlen], by rw [c2]; rfl, ?_, by rw [c2, hvsum], c4⟩
  intro r hr
  have hmem : Rect.area r ∈ (squarifySpec (normalize_sizes sizes A A) 0 0 A A).map Rect.area :=
    List.mem_map_of_mem _ hr
  rw [c2] at hmem
  exact le_of_lt (hvpos _ hmem)

/-- Witness for `layout_engine_ok` at sizes `[1, 3]` and target side `A = 2`. -/
theorem layout_engine_ok_witness :
    (([1, 3] : List ℚ) ≠ [] ∧ (∀ s ∈ ([1, 3] : List ℚ), 0 < s) ∧ (0 : ℚ) < 2) ∧
    ((squarifySpec (normalize_sizes [1, 3] 2 2) 0 0 2 2).length = ([1, 3] : List ℚ).length ∧
     (squarifySpec (normalize_sizes [1, 3] 2 2) 0 0 2 2).map Rect.area =
       ([1, 3] : List ℚ).map (fun s => s * ((2 : ℚ) * 2) / ([1, 3] : List ℚ).sum) ∧
     (∀ r ∈ squarifySpec (normalize_sizes [1, 3] 2 2) 0 0 2 2, 0 ≤ Rect.area r) ∧
     ((squarifySpec (normalize_sizes [1, 3] 2 2) 0 0 2 2).map Rect.area).sum = 2 * 2 ∧
     List.Pairwise RectDisjoint (squarifySpec (normalize_sizes [1, 3] 2 2) 0 0 2 2)) :=
  ⟨⟨by decide, by decide, by decide⟩,
   layout_engine_ok [1, 3] 2 (by decide) (by decide) (by decide)⟩

lemma assembleAux_ok (rects : List Rect) :
    ∀ (ms : List FileMetric) (i : ℕ), i + ms.length ≤ rects.length →
      ∃ ts, assembleAux rects ms i = .ok ts ∧ ts.length = ms.length := by
  intro ms
  induction ms with
  | nil => intro i _; exact ⟨[], rfl, rfl⟩
  | cons m ms ih =>
    intro i h
    have hi : i < rects.length := by
      simp only [List.length_cons] at h
      omega
    obtain ⟨ts, hts, hlen⟩ := ih (i + 1) (by simp only [List.length_cons] at h; omega)
    refine ⟨mkTile m (rects.get ⟨i, hi⟩) :: ts, ?_, by simp [hlen]⟩
    simp only [assembleAux, List.get?_eq_get hi, hts]

lemma assembleAux_err (rects : List Rect) :
    ∀ (ms : List FileMetric) (i : ℕ), ms ≠ [] → rects.length < i + ms.length →
      assembleAux rects ms i = .error indexErrMsg := by
  intro ms
  induction ms with
  | nil => intro i hne _; exact absurd rfl hne
  | cons m ms ih =>
    intro i _ h
    by_cases hi : i < rects.length
    · have hms : ms ≠ [] := by
        intro he
        subst he
        simp only [List.length_cons, List.length_nil] at h
        omega
      have hrec := ih (i + 1) hms (by simp only [List.length_cons] at h; omega)
      simp only [assembleAux, List.get?_eq_get hi, hrec]
    · have hnone : rects.get? i = none := List.get?_eq_none.mpr (by omega)
      simp only [assembleAux, hnone]

lemma assemble_matching (metrics : List FileMetric) (rects : List Rect)
    (h : metrics.length ≤ rects.length) :
    ∃ ts, assemble metrics rects = .ok ts ∧ ts.length = metrics.length :=
  assembleAux_ok rects metrics 0 (by omega)

/-- C6 counterexample: with one metric and two rectangles the counts differ,
yet the assembler succeeds, silently ignoring the extra rectangle instead of
failing the run. -/
theorem assembler_mismatch_cex :
    assemble [⟨[], 1, 1, 1⟩] [⟨0, 0, 1, 1⟩, ⟨1, 0, 1, 1⟩] =
      .ok [mkTile ⟨[], 1, 1, 1⟩ ⟨0, 0, 1, 1⟩] ∧
    ([(⟨[], 1, 1, 1⟩ : FileMetric)].length : ℕ) ≠
      ([(⟨0, 0, 1, 1⟩ : Rect), ⟨1, 0, 1, 1⟩].length : ℕ) := by
  exact ⟨rfl, by decide⟩

/-- C6 amended: when there are fewer rectangles than metrics the assembler
aborts the whole run with an IndexError (so nothing is truncated in that
direction), but when there are more rectangles than metrics it silently
succeeds, producing one tile per metric and ignoring the extra rectangles. -/
theorem assembler_mismatch_amended (metrics : List FileMetric) (rects : List Rect) :
    (rects.length < metrics.length → assemble metrics rects = .error indexErrMsg) ∧
    (metrics.length ≤ rects.length →
      ∃ ts, assemble metrics rects = .ok ts ∧ ts.length = metrics.length) := by
  constructor
  · intro h
    have hne : metrics ≠ [] := by
      intro he
      subst he
      simp only [List.length_nil] at h
      omega
    exact assembleAux_err rects metrics 0 hne (by omega)
  · intro h
    exact assemble_matching metrics rects h

/-- Witness for `assembler_mismatch_amended`: one metric and zero rectangles
aborts with the IndexError. -/
theorem assembler_mismatch_amended_witness :
    assemble [⟨[], 1, 1, 1⟩] [] = .error indexErrMsg :=
  (assembler_mismatch_amended [⟨[], 1, 1, 1⟩] []).1 (by decide)

lemma processFiles_bound (root : List Char) (maxFiles : ℕ) :
    ∀ (files : List (List Char)) (acc : List SourceFile),
      acc.length < max 1 maxFiles →
      (processFiles root maxFiles files acc).1.length ≤ max 1 maxFiles ∧
      ((processFiles root maxFiles files acc).2 = false →
        (processFiles root maxFiles files acc).1.length < max 1 maxFiles) := by
  intro files
  induction files with
  | nil => intro acc h; exact ⟨le_of_lt h, fun _ => h⟩
  | cons f rest ih =>
    intro acc h
    have hunfold : processFiles root maxFiles (f :: rest) acc =
        (if maxFiles ≤ (if isSupported f then acc ++ [⟨f, root⟩] else acc).length then
          ((if isSupported f then acc ++ [⟨f, root⟩] else acc), true)
        else processFiles root maxFiles rest
          (if isSupported f then acc ++ [⟨f, root⟩] else acc)) := rfl
    have hacc2 : (if isSupported f then acc ++ [⟨f, root⟩] else acc).length ≤
        acc.length + 1 := by
      split <;> simp
    rw [hunfold]
    by_cases hstop : maxFiles ≤ (if isSupported f then acc ++ [⟨f, root⟩] else acc).length
    · rw [if_pos hstop]
      exact ⟨by simp only []; omega, by intro hc; simp at hc⟩
    · rw [if_neg hstop]
      exact ih _ (by omega)

lemma walkGo_bound (maxFiles : ℕ) :
    ∀ (tree : List (List Char × List (List Char))) (acc : List SourceFile),
      acc.length < max 1 maxFiles →
      (walkGo maxFiles tree acc).length ≤ max 1 maxFiles := by
  intro tree
  induction tree with
  | nil => intro acc h; exact le_of_lt h
  | cons entry rest ih =>
    intro acc h
    obtain ⟨root, files⟩ := entry
    have hunfold : walkGo maxFiles ((root, files) :: rest) acc =
        (if containsL ".git".toList root then walkGo maxFiles rest acc
        else if (processFiles root maxFiles files acc).2 then
          (processFiles root maxFiles files acc).1
        else walkGo maxFiles rest (processFiles root maxFiles files acc).1) := rfl
    rw [hunfold]
    split
    · exact ih acc h
    · obtain ⟨hb, hlt⟩ := processFiles_bound root maxFiles files acc h
      split
      · exact hb
      · next hfalse => exact ih _ (hlt (by simpa using hfalse))

/-- C8 counterexample: with a configured maximum of 0 and a single supported
file, the enumerator appends the file before checking the cap and returns one
entry, exceeding the configured maximum. -/
theorem enumerator_cap_cex :
    (get_source_files_from_local [("r".toList, ["a.py".toList])] 0).length = 1 ∧
    ¬ ((get_source_files_from_local [("r".toList, ["a.py".toList])] 0).length ≤ 0) := by
  decide

/-- C8 amended: for every walked tree and configured maximum, the enumerator
returns at most `max 1 maxFiles` entries — so at most `maxFiles` whenever the
maximum is at least 1; reaching the cap returns what was found so far (the
warning print is a side effect outside the model) instead of raising. -/
theorem enumerator_cap_amended (tree : List (List Char × List (List Char)))
    (maxFiles : ℕ) :
    (get_source_files_from_local tree maxFiles).length ≤ max 1 maxFiles := by
  unfold get_source_files_from_local
  exact walkGo_bound maxFiles tree []
    (Nat.lt_of_lt_of_le Nat.zero_lt_one (le_max_left _ _))

lemma processFiles_mem (root : List Char) (maxFiles : ℕ) :
    ∀ (files : List (List Char)) (acc : List SourceFile) (sf : SourceFile),
      sf ∈ (processFiles root maxFiles files acc).1 → sf ∈ acc ∨ sf.root = root := by
  intro files
  induction files with
  | nil => intro acc sf h; exact Or.inl h
  | cons f rest ih =>
    intro acc sf h
    have hunfold : processFiles root maxFiles (f :: rest) acc =
        (if maxFiles ≤ (if isSupported f then acc ++ [⟨f, root⟩] else acc).length then
          ((if isSupported f then acc ++ [⟨f, root⟩] else acc), true)
        else processFiles root maxFiles rest
          (if isSupported f then acc ++ [⟨f, root⟩] else acc)) := rfl
    have hmem2 : ∀ a : SourceFile,
        a ∈ (if isSupported f then acc ++ [⟨f, root⟩] else acc) →
        a ∈ acc ∨ a.root = root := by
      intro a ha
      by_cases hs : isSupported f = true
      · rw [if_pos hs] at ha
        rcases List.mem_append.mp ha with h1 | h2
        · exact Or.inl h1
        · right
          rw [List.mem_singleton.mp h2]
      · rw [if_neg hs] at ha
        exact Or.inl ha
    rw [hunfold] at h
    by_cases hstop : maxFiles ≤ (if isSupported f then acc ++ [⟨f, root⟩] else acc).length
    · rw [if_pos hstop] at h
      exact hmem2 sf h
    · rw [if_neg hstop] at h
      rcases ih _ sf h with h1 | h2
      · exact hmem2 sf h1
      · exact Or.inr h2

lemma walkGo_nogit (maxFiles : ℕ) :
    ∀ (tree : List (List Char × List (List Char))) (acc : List SourceFile),
      (∀ a ∈ acc, containsL ".git".toList a.root = false) →
      ∀ sf ∈ walkGo maxFiles tree acc, containsL ".git".toList sf.root = false := by
  intro tree
  induction tree with
  | nil => intro acc hacc sf h; exact hacc sf h
  | cons entry rest ih =>
    intro acc hacc sf h
    obtain ⟨root, files⟩ := entry
    have hunfold : walkGo maxFiles ((root, files) :: rest) acc =
        (if containsL ".git".toList root then walkGo maxFiles rest acc
        else if (processFiles root maxFiles files acc).2 then
          (processFiles root maxFiles files acc).1
        else walkGo maxFiles rest (processFiles root maxFiles files acc).1) := rfl
    rw [hunfold] at h
    by_cases hgit : containsL ".git".toList root = true
    · rw [if_pos hgit] at h
      exact ih acc hacc sf h
    · rw [if_neg hgit] at h
      have hroot : containsL ".git".toList root = false := by
        cases hx : containsL ".git".toList root
        · rfl
        · exact absurd hx hgit
      have hacc2 : ∀ a ∈ (processFiles root maxFiles files acc).1,
          containsL ".git".toList a.root = false := by
        intro a ha
        rcases processFiles_mem root maxFiles files acc a ha with h1 | h2
        · exact hacc a h1
        · rw [h2]
          exact hroot
      by_cases hstopped : (processFiles root maxFiles files acc).2 = true
      · rw [if_pos hstopped] at h
        exact hacc2 sf h
      · rw [if_neg hstopped] at h
        exact ih _ hacc2 sf h

/-- C9: the version-control filter is a substring match on the walked directory
path, not an equality match on the directory name: every enumerated file comes
from a directory whose path does not contain `.git` as a substring, and in
particular a `.github` directory — not version-control metadata — has all its
files (even supported ones like a shell script) excluded. -/
theorem enumerator_git_substring :
    (∀ (tree : List (List Char × List (List Char))) (maxFiles : ℕ)
        (sf : SourceFile), sf ∈ get_source_files_from_local tree maxFiles →
        containsL ".git".toList sf.root = false) ∧
    get_source_files_from_local [(".github".toList, ["deploy.sh".toList])] 2000 = [] := by
  constructor
  · intro tree maxFiles sf h
    exact walkGo_nogit maxFiles tree [] (by intro a ha; simp at ha) sf h
  · decide

/-- Witness for `enumerator_git_substring`: a file enumerated from the clean
directory `src` has a root that does not contain `.git`. -/
theorem enumerator_git_substring_witness :
    containsL ".git".toList (⟨"a.py".toList, "src".toList⟩ : SourceFile).root = false :=
  enumerator_git_substring.1 [("src".toList, ["a.py".toList])] 2000
    ⟨"a.py".toList, "src".toList⟩ (by decide)

lemma splitCharAux_length (sep : Char) :
    ∀ (s cur : List Char), (splitCharAux sep cur s).length = s.count sep + 1 := by
  intro s
  induction s with
  | nil => intro cur; simp [splitCharAux]
  | cons c rest ih =>
    intro cur
    simp only [splitCharAux]
    split
    · next hc =>
      rw [List.length_cons, ih [], List.count_cons, hc]
      simp
    · next hc =>
      have hcf : (c == sep) = false := by
        cases hx : c == sep
        · rfl
        · exact absurd hx hc
      rw [ih (c :: cur), List.count_cons, hcf]
      simp

lemma count_zero_of_not_containsL (c : Char) :
    ∀ (s : List Char), containsL [c] s = false → s.count c = 0 := by
  intro s
  induction s with
  | nil => intro _; rfl
  | cons a rest ih =>
    intro h
    simp only [containsL] at h
    obtain ⟨hs, hrest⟩ := Bool.or_eq_false_iff.mp h
    have hs2 : (c == a) = false := by
      simpa [startsWithL] using hs
    have ha : (a == c) = false := by
      cases hx : a == c
      · rfl
      · have hac : a = c := eq_of_beq hx
        subst hac
        simp at hs2
    rw [List.count_cons, ih hrest, ha]
    simp

/-- C10: for every repository URL that after stripping contains no `/` — such
as `https://github.com/owner` — `get_github_repo_info` raises an unhandled
IndexError (`parts[1]` out of range), and `build_city_from_github` terminates
with that same exception rather than one of the structured input errors. -/
theorem url_parse_index_error (url : List Char)
    (tree : List (List Char × List (List Char)))
    (oracle : SourceFile → Option FileMetric) (order : List SourceFile)
    (h : containsL ['/'] (stripRepoURL url) = false) :
    get_github_repo_info url = .error indexErrMsg ∧
    build_city_from_github url tree oracle order = .error indexErrMsg ∧
    indexErrMsg ≠ noFilesMsg ∧ indexErrMsg ≠ noProcessedMsg := by
  have hcount : (stripRepoURL url).count '/' = 0 :=
    count_zero_of_not_containsL '/' _ h
  have hlen : (splitChar '/' (stripRepoURL url)).length = 1 := by
    unfold splitChar
    rw [splitCharAux_length, hcount]
  have hget : (splitChar '/' (stripRepoURL url))[1]? = none := by
    rw [← List.get?_eq_getElem?]
    exact List.get?_eq_none.mpr (by omega)
  have hrepo : get_github_repo_info url = .error indexErrMsg := by
    rcases h0 : (splitChar '/' (stripRepoURL url))[0]? with _ | a
    · simp [get_github_repo_info, h0, hget]
    · simp [get_github_repo_info, h0, hget]
  refine ⟨hrepo, ?_, by decide, by decide⟩
  simp [build_city_from_github, hrepo]

/-- Witness for `url_parse_index_error` at the owner-only URL
`https://github.com/owner`. -/
theorem url_parse_index_error_witness :
    get_github_repo_info "https://github.com/owner".toList = .error indexErrMsg ∧
    build_city_from_github "https://github.com/owner".toList [] (fun _ => none) [] =
      .error indexErrMsg ∧
    indexErrMsg ≠ noFilesMsg ∧ indexErrMsg ≠ noProcessedMsg :=
  url_parse_index_error "https://github.com/owner".toList [] (fun _ => none) []
    (by decide)

/-- C5: with a parseable URL, an empty enumerated file set aborts the run with
the input error, while a non-empty file set whose scheduled analyses all fail
aborts with the distinct aggregate "no analyzable files" error. -/
theorem empty_results_error (url : List Char)
    (tree : List (List Char × List (List Char)))
    (oracle : SourceFile → Option FileMetric) (order : List SourceFile)
    (p : List Char × List Char)
    (hparse : get_github_repo_info url = .ok p) :
    (get_source_files_from_local tree MAX_FILES = [] →
      build_city_from_github url tree oracle order = .error noFilesMsg) ∧
    (get_source_files_from_local tree MAX_FILES ≠ [] →
      scheduler order oracle = [] →
      build_city_from_github url tree oracle order = .error noProcessedMsg) ∧
    noProcessedMsg ≠ noFilesMsg := by
  refine ⟨?_, ?_, by decide⟩
  · intro hfiles
    simp [build_city_from_github, hparse, hfiles]
  · intro hfiles hsched
    simp [build_city_from_github, hparse, hfiles, hsched]

/-- Witness for `empty_results_error`: a one-file tree whose analysis returns
nothing yields the aggregate error, and the empty tree yields the input error. -/
theorem empty_results_error_witness :
    build_city_from_github "https://github.com/a/b".toList
      [("r".toList, ["a.py".toList])] (fun _ => none) [] = .error noProcessedMsg ∧
    build_city_from_github "https://github.com/a/b".toList [] (fun _ => none) [] =
      .error noFilesMsg ∧
    noProcessedMsg ≠ noFilesMsg := by
  refine ⟨?_, ?_, ?_⟩
  · exact (empty_results_error "https://github.com/a/b".toList
      [("r".toList, ["a.py".toList])] (fun _ => none) [] ("a".toList, "b".toList)
      (by decide)).2.1 (by decide) (by decide)
  · exact (empty_results_error "https://github.com/a/b".toList [] (fun _ => none) []
      ("a".toList, "b".toList) (by decide)).1 (by decide)
  · exact (empty_results_error "https://github.com/a/b".toList [] (fun _ => none) []
      ("a".toList, "b".toList) (by decide)).2.2

lemma build_city_ok (url : List Char)
    (tree : List (List Char × List (List Char)))
    (oracle : SourceFile → Option FileMetric) (order : List SourceFile)
    (p : List Char × List Char)
    (hparse : get_github_repo_info url = .ok p)
    (hfiles : get_source_files_from_local tree MAX_FILES ≠ [])
    (hsched : scheduler order oracle ≠ []) :
    ∃ ts, build_city_from_github url tree oracle order = .ok ts ∧
      ts.length = (scheduler order oracle).length := by
  simp only [build_city_from_github, hparse, if_neg hfiles, if_neg hsched]
  apply assemble_matching
  rw [squarify_len]
  simp only [normalize_sizes, List.length_map]
  split
  · simp
  · simp

/-- C2: for any completion order (any permutation of the submitted files), a
file whose analysis fails contributes nothing to the scheduler's output, the
batch is not aborted (a successfully analyzed file's result is still present,
every output comes from a successfully analyzed file other than the failing
one), the scheduler never returns more results than there were input files,
and — given at least one analyzable file — the whole run still succeeds. -/
theorem scheduler_drops_failures (files order : List SourceFile)
    (oracle : SourceFile → Option FileMetric) (F G : SourceFile) (m : FileMetric)
    (hperm : order.Perm files) (hF : F ∈ files) (hFfail : oracle F = none)
    (hG : G ∈ order) (hGok : oracle G = some m) :
    (scheduler order oracle).length ≤ files.length ∧
    m ∈ scheduler order oracle ∧
    scheduler order oracle ≠ [] ∧
    (∀ r ∈ scheduler order oracle, ∃ g ∈ order, oracle g = some r ∧ g ≠ F) ∧
    (∀ (url : List Char) (tree : List (List Char × List (List Char)))
        (p : List Char × List Char),
      get_github_repo_info url = .ok p →
      get_source_files_from_local tree MAX_FILES ≠ [] →
      ∃ ts, build_city_from_github url tree oracle order = .ok ts ∧
        ts.length = (scheduler order oracle).length) := by
  have hmem : m ∈ scheduler order oracle :=
    List.mem_filterMap.mpr ⟨G, hG, hGok⟩
  have hne : scheduler order oracle ≠ [] := List.ne_nil_of_mem hmem
  refine ⟨?_, hmem, hne, ?_, ?_⟩
  · calc (scheduler order oracle).length ≤ order.length :=
          List.length_filterMap_le oracle order
      _ = files.length := hperm.length_eq
  · intro r hr
    obtain ⟨g, hg, hor⟩ := List.mem_filterMap.mp hr
    refine ⟨g, hg, hor, ?_⟩
    intro he
    subst he
    rw [hFfail] at hor
    cases hor
  · intro url tree p hparse hfiles
    exact build_city_ok url tree oracle order p hparse hfiles hne

/-- Witness for `scheduler_drops_failures`: two files, one corrupt, one
analyzable. -/
theorem scheduler_drops_failures_witness :
    (scheduler [⟨"bad.py".toList, "r".toList⟩, ⟨"ok.py".toList, "r".toList⟩]
      (fun f => if f.name = "ok.py".toList then some ⟨f.name, 3, 2, 1⟩ else none)).length ≤
      ([⟨"bad.py".toList, "r".toList⟩, ⟨"ok.py".toList, "r".toList⟩] : List SourceFile).length ∧
    (⟨"ok.py".toList, 3, 2, 1⟩ : FileMetric) ∈
      scheduler [⟨"bad.py".toList, "r".toList⟩, ⟨"ok.py".toList, "r".toList⟩]
        (fun f => if f.name = "ok.py".toList then some ⟨f.name, 3, 2, 1⟩ else none) ∧
    scheduler [⟨"bad.py".toList, "r".toList⟩, ⟨"ok.py".toList, "r".toList⟩]
        (fun f => if f.name = "ok.py".toList then some ⟨f.name, 3, 2, 1⟩ else none) ≠ [] ∧
    (∀ r ∈ scheduler [⟨"bad.py".toList, "r".toList⟩, ⟨"ok.py".toList, "r".toList⟩]
        (fun f => if f.name = "ok.py".toList then some ⟨f.name, 3, 2, 1⟩ else none),
      ∃ g ∈ ([⟨"bad.py".toList, "r".toList⟩, ⟨"ok.py".toList, "r".toList⟩] : List SourceFile),
        (fun f : SourceFile => if f.name = "ok.py".toList then some (⟨f.name, 3, 2, 1⟩ : FileMetric) else none) g = some r ∧
          g ≠ ⟨"bad.py".toList, "r".toList⟩) ∧
    (∀ (url : List Char) (tree : List (List Char × List (List Char)))
        (p : List Char × List Char),
      get_github_repo_info url = .ok p →
      get_source_files_from_local tree MAX_FILES ≠ [] →
      ∃ ts, build_city_from_github url tree
          (fun f => if f.name = "ok.py".toList then some ⟨f.name, 3, 2, 1⟩ else none)
          [⟨"bad.py".toList, "r".toList⟩, ⟨"ok.py".toList, "r".toList⟩] = .ok ts ∧
        ts.length = (scheduler [⟨"bad.py".toList, "r".toList⟩, ⟨"ok.py".toList, "r".toList⟩]
          (fun f => if f.name = "ok.py".toList then some ⟨f.name, 3, 2, 1⟩ else none)).length) :=
  scheduler_drops_failures
    [⟨"bad.py".toList, "r".toList⟩, ⟨"ok.py".toList, "r".toList⟩]
    [⟨"bad.py".toList, "r".toList⟩, ⟨"ok.py".toList, "r".toList⟩]
    (fun f => if f.name = "ok.py".toList then some ⟨f.name, 3, 2, 1⟩ else none)
    ⟨"bad.py".toList, "r".toList⟩ ⟨"ok.py".toList, "r".toList⟩
    ⟨"ok.py".toList, 3, 2, 1⟩
    (List.Perm.refl _) (by decide) (by decide) (by decide) (by decide)
